import Mathlib

/-!
Shallow embedding of the judging core of koneko-online-judge.

The source of authority is the repository's Go code: the judgement job
(`judgementJob.Run`, `compile`, `markAs`, `executeCaseSet`, `judgeCaseSet`,
`createJudgementWorker`, `shuffleJudgeResults`) and the Simple evaluator
(`simpleEvaluator`, `simpleCaseSetEvaluator`).  Pieces of the repository that
are only referenced from there (the `workers` sandbox package, the batched
result parser, the status-folding function `evaluateStatuses`, the blank
result shells) are modelled from the specification and marked as such.
-/

/-- Judgement statuses (`JudgementStatus` in the models package).  Only the
terminal statuses reachable by the judging core are modelled. -/
inductive JudgementStatus where
  | accepted
  | presentationError
  | wrongAnswer
  | outputLimitExceeded
  | timeLimitExceeded
  | memoryLimitExceeded
  | runtimeError
  | compileError
  | unknownError
deriving Repr, DecidableEq

/-- Sandbox execution statuses (`workers.Status`). -/
inductive WorkerStatus where
  | finished
  | timeLimitExceeded
  | memoryLimitExceeded
  | runtimeError
  | outputLimitExceeded
  | internalError
deriving Repr, DecidableEq

/-- `workers.ExecResult`: the structured outcome of one sandboxed execution.
`execTime` is a `time.Duration` (nanoseconds, nonnegative here),
`memoryUsage` an `int64` byte count. -/
structure ExecResult where
  status : WorkerStatus
  execTime : Nat
  memoryUsage : Int
  stdout : String
  stderr : String
  exitCode : Int
deriving Repr, DecidableEq

/-- `TestCase`: input and expected output. -/
structure TestCase where
  input : String
  output : String
deriving Repr, DecidableEq

/-- `CaseSet`: one scoring bucket (point awarded only on full pass). -/
structure CaseSet where
  point : Int
  cases : List TestCase
deriving Repr, DecidableEq

/-- Priority of a status in the folding order of §4.H (highest dominates). -/
def statusPriority : JudgementStatus → Nat
  | .accepted => 0
  | .presentationError => 1
  | .wrongAnswer => 2
  | .outputLimitExceeded => 3
  | .timeLimitExceeded => 4
  | .memoryLimitExceeded => 5
  | .runtimeError => 6
  | .compileError => 7
  | .unknownError => 8

/-- Modelled from the spec: `evaluateStatuses` (status folding, §4.H) is not
under `src/`.  It reduces a multiset of per-unit statuses (here a list) to the
highest-priority status present; the empty multiset folds to UnknownError. -/
def evaluateStatuses (l : List JudgementStatus) : JudgementStatus :=
  match l with
  | [] => .unknownError
  | x :: xs => xs.foldl (fun a b => if statusPriority a < statusPriority b then b else a) x

/-- Go's `unicode.IsSpace` (the white-space class used by `strings.TrimSpace`). -/
def goIsSpace (c : Char) : Bool :=
  c.val == 0x9 || c.val == 0xA || c.val == 0xB || c.val == 0xC || c.val == 0xD ||
  c.val == 0x20 || c.val == 0x85 || c.val == 0xA0 || c.val == 0x1680 ||
  (0x2000 ≤ c.val && c.val ≤ 0x200A) || c.val == 0x2028 || c.val == 0x2029 ||
  c.val == 0x202F || c.val == 0x205F || c.val == 0x3000

/-- Go's `strings.TrimSpace`: drop leading and trailing white space. -/
def trimSpace (s : String) : String :=
  ⟨((s.data.dropWhile goIsSpace).reverse.dropWhile goIsSpace).reverse⟩

/-- State of `simpleCaseSetEvaluator`: the set's point and the multiset of
per-case statuses collected so far (the Go map of counts, as a list). -/
structure SimpleCaseSetEvaluator where
  setPoint : Int
  statuses : List JudgementStatus
deriving Repr, DecidableEq

/-- `newSimpleCaseSetEvaluator`. -/
def newSimpleCaseSetEvaluator (set : CaseSet) : SimpleCaseSetEvaluator :=
  { setPoint := set.point, statuses := [] }

/-- The per-case classification of `simpleCaseSetEvaluator.next` (the inner
closure in the source): absent result → UnknownError; MLE/TLE/RE map
directly; Finished compares stdout to the expected output byte-exactly, then
up to `strings.TrimSpace`; any other worker status falls to the `default`
branch, UnknownError. -/
def classifySimple (res : Option ExecResult) (testCase : TestCase) : JudgementStatus :=
  match res with
  | none => .unknownError
  | some r =>
    match r.status with
    | .memoryLimitExceeded => .memoryLimitExceeded
    | .timeLimitExceeded => .timeLimitExceeded
    | .runtimeError => .runtimeError
    | .finished =>
      if r.stdout = testCase.output then .accepted
      else if trimSpace r.stdout = trimSpace testCase.output then .presentationError
      else .wrongAnswer
    | _ => .unknownError

/-- `simpleCaseSetEvaluator.next`: classify, record the status, and return
`(status, 0)` (per-case point is always 0) together with the updated state. -/
def SimpleCaseSetEvaluator.next (e : SimpleCaseSetEvaluator) (res : Option ExecResult)
    (testCase : TestCase) : (JudgementStatus × Int) × SimpleCaseSetEvaluator :=
  let st := classifySimple res testCase
  ((st, 0), { e with statuses := st :: e.statuses })

/-- `simpleCaseSetEvaluator.evaluate`: fold the collected statuses; award the
full set point iff the fold is Accepted. -/
def SimpleCaseSetEvaluator.evaluate (e : SimpleCaseSetEvaluator) : JudgementStatus × Int :=
  let st := evaluateStatuses e.statuses
  if st = .accepted then (st, e.setPoint) else (st, 0)

/-- State of `simpleEvaluator` (the submission-level evaluator): accumulated
point, multiset of set statuses, and the most recently created case-set
evaluator (`lastSet`, a shared mutable reference in Go, threaded explicitly
here). -/
structure SimpleEvaluator where
  point : Int
  statuses : List JudgementStatus
  lastSet : Option SimpleCaseSetEvaluator
deriving Repr, DecidableEq

/-- `newSimpleEvaluator`. -/
def newSimpleEvaluator : SimpleEvaluator :=
  { point := 0, statuses := [], lastSet := none }

/-- The first half of `simpleEvaluator.next`: if a previous case-set
evaluator exists, fold its verdict into the accumulators (`lastSet` itself is
not cleared, exactly as in the source). -/
def SimpleEvaluator.foldLast (e : SimpleEvaluator) : SimpleEvaluator :=
  match e.lastSet with
  | none => e
  | some s =>
    let r := s.evaluate
    { e with point := e.point + r.2, statuses := r.1 :: e.statuses }

/-- `simpleEvaluator.next(set, nil)`: fold the previous set, then install (and
return) a fresh case-set evaluator when a set is supplied. -/
def SimpleEvaluator.next (e : SimpleEvaluator) (set : Option CaseSet) :
    SimpleEvaluator × Option SimpleCaseSetEvaluator :=
  let e := e.foldLast
  match set with
  | none => (e, none)
  | some s =>
    let cse := newSimpleCaseSetEvaluator s
    ({ e with lastSet := some cse }, some cse)

/-- `simpleEvaluator.evaluate`: UnknownError with 0 points when no set was
ever started; otherwise fold the last set in and reduce the set statuses. -/
def SimpleEvaluator.evaluate (e : SimpleEvaluator) : JudgementStatus × Int :=
  match e.lastSet with
  | none => (.unknownError, 0)
  | some _ =>
    let e := (e.next none).1
    (evaluateStatuses e.statuses, e.point)

/-! ## The judgement job

`judgementJob.Run` drives one submission.  Everything the job obtains from
the outside world — the compile sandbox's behaviour, each per-set sandbox's
behaviour, the parser's stream of blocks and the shuffle's random draws — is
supplied as an explicit environment. -/

/-- Outcome of the `compile` helper.  `compile` returns `(nil, nil)` whenever
any of its three steps fails; on the inject and run failures the container
had already been created and is never removed. -/
inductive CompileEnv where
  | createFail
  | injectFail
  | runFail
  | ok (res : ExecResult)
deriving Repr, DecidableEq

/-- Outcome of `createJudgementWorker`'s fallible steps.  On every failure
after container creation the source removes the container before
returning. -/
inductive CreateEnv where
  | createFail
  | scriptFail
  | injectScriptFail
  | injectInputFail (i : Nat)
  | copyExeFail
  | ok
deriving Repr, DecidableEq

/-- Environment of one case set: the fate of `createJudgementWorker`, whether
`w.Run` succeeds, the parser's stream (one entry per well-formed or malformed
block), and the random draws consumed by the shuffle. -/
structure SetEnv where
  create : CreateEnv
  runOk : Bool
  blocks : List (Except Unit ExecResult)
  draws : List Nat
deriving Repr

/-- A persisted `JudgeResult` row (status, exec time, memory usage). -/
structure CaseRowData where
  status : JudgementStatus
  execTime : Nat
  memoryUsage : Int
deriving Repr, DecidableEq

/-- A persisted `JudgeSetResult` row. -/
structure SetRowData where
  status : JudgementStatus
  point : Int
  execTime : Nat
  memoryUsage : Int
deriving Repr, DecidableEq

/-- The submission-level row written by the job's deferred update. -/
structure SubRowData where
  status : JudgementStatus
  point : Int
  execTime : Nat
  memoryUsage : Int
deriving Repr, DecidableEq

/-- Which sandbox a trace entry is about. -/
inductive SandboxKind where
  | compileBox
  | execBox (setIdx : Nat)
deriving Repr, DecidableEq

/-- One sandbox that was actually created during the run, and whether it was
destroyed before `Run` returned. -/
structure SandboxFate where
  kind : SandboxKind
  destroyed : Bool
deriving Repr, DecidableEq

/-- Modelled from the spec: blank `JudgeSetResult` shells (created outside
`src/`) start with status UnknownError and zero metrics. -/
def blankSetRow : SetRowData := ⟨.unknownError, 0, 0, 0⟩

/-- Modelled from the spec: blank `JudgeResult` shells start with status
UnknownError and zero metrics. -/
def blankCaseRow : CaseRowData := ⟨.unknownError, 0, 0⟩

/-- What one call of the parser's `Next` reports. -/
inductive ParseNext where
  | ok (r : ExecResult)
  | absent
  | err
deriving Repr, DecidableEq

/-- Modelled from the spec: `workers.ExecResultParser` (not under `src/`)
yields the stream's blocks in order, reports absence after the last block,
and fails on a malformed block. -/
def parserNext (blocks : List (Except Unit ExecResult)) (i : Nat) : ParseNext :=
  match blocks[i]? with
  | some (.ok r) => .ok r
  | some (.error _) => .err
  | none => .absent

/-- Errors arising below the case-set boundary. -/
inductive JobErr where
  | createWorker
  | runWorker
  | parserErr
  | parseOutput
deriving Repr, DecidableEq

/-- `listSwap l i j` swaps the elements at positions `i` and `j` (the Go
parallel assignment `results[i], results[j] = results[j], results[i]`). -/
def listSwap (l : List α) (i j : Nat) : List α :=
  match l[i]?, l[j]? with
  | some a, some b => (l.set i b).set j a
  | _, _ => l

/-- The loop of `shuffleJudgeResults`, run for `i, i-1, ..., 0`; the draw at
step `i` is `r.Intn(i+1)`, i.e. a value in `[0, i]`. -/
def fisherYatesAux (draws : List Nat) (l : List α) (i : Nat) : List α :=
  match i with
  | 0 => listSwap l 0 (draws.getD 0 0 % 1)
  | i' + 1 => fisherYatesAux draws (listSwap l (i' + 1) (draws.getD (i' + 1) 0 % (i' + 2))) i'

/-- `shuffleJudgeResults`: a Fisher–Yates shuffle driven by the given random
draws (in the source the draws come from a PRNG seeded from `crypto/rand`;
when seeding fails, the error is ignored by the caller and the list is left
in place, which the draws `[0, 1, 2, ...]` reproduce). -/
def shuffleJudgeResults (draws : List Nat) (l : List α) : List α :=
  match l with
  | [] => l
  | _ => fisherYatesAux draws l (l.length - 1)

/-- The per-case loop of `judgeCaseSet`, iterating over the (shuffled)
`JudgeResults` slice, pulling one parser block per case.  Each judged case is
persisted keyed by the original index of its test case (`db.Model(&JudgeResult{ID: r.ID})`).
A parser failure aborts the set; a missing block is tolerated only at the
last position.  On the tolerated path the evaluator receives an absent
result (the classification's `res == nil` branch); the metrics of the absent
block are modelled from the spec as zero. -/
def judgeCaseSetLoop (blocks : List (Except Unit ExecResult)) (n : Nat)
    (ev : SimpleCaseSetEvaluator) (i : Nat) (acc : List (Nat × CaseRowData)) :
    List (Nat × TestCase) → List (Nat × CaseRowData) × SimpleCaseSetEvaluator × Option JobErr
  | [] => (acc.reverse, ev, none)
  | (orig, tc) :: rest =>
    match parserNext blocks i with
    | .err => (acc.reverse, ev, some .parserErr)
    | .absent =>
      if i = n - 1 then
        let s := (ev.next none tc)
        judgeCaseSetLoop blocks n s.2 (i + 1) ((orig, ⟨s.1.1, 0, 0⟩) :: acc) rest
      else (acc.reverse, ev, some .parseOutput)
    | .ok r =>
      let s := (ev.next (some r) tc)
      judgeCaseSetLoop blocks n s.2 (i + 1)
        ((orig, ⟨s.1.1, r.execTime, Int.tdiv r.memoryUsage 1024⟩) :: acc) rest

/-- Result of one case set inside the job's loop. -/
structure SetOutcome where
  fates : List SandboxFate
  caseUpds : List (Nat × CaseRowData)
  setRow : Option SetRowData
  ev : SimpleCaseSetEvaluator
  hardErr : Bool
deriving Repr, DecidableEq

/-- `executeCaseSet` followed by `judgeCaseSet` for one case set.

* `createJudgementWorker` failures: no sandbox on container-create failure,
  a created-and-removed sandbox on the later failures; either way
  `executeCaseSet` returns an error which makes the job's loop `break`
  (`hardErr`).
* If `w.Run` fails, `executeCaseSet` returns the error without removing the
  created worker — that sandbox is never destroyed.
* Otherwise `judgeCaseSet` runs under `defer w.Remove()`: the sandbox is
  destroyed whatever the parse outcome.  Its error result is discarded by
  the caller (`j.judgeCaseSet(w, setEval, &r)`), so a parse failure does not
  set `hardErr`; the set row is simply never written.  `maxExecTime` and
  `maxMemoryUsage` are declared in the source but never reassigned inside
  the loop, so a written set row always records zero for both. -/
def processSet (idx : Nat) (cs : CaseSet) (env : SetEnv) (ev0 : SimpleCaseSetEvaluator) :
    SetOutcome :=
  match env.create with
  | .createFail => ⟨[], [], none, ev0, true⟩
  | .scriptFail => ⟨[⟨.execBox idx, true⟩], [], none, ev0, true⟩
  | .injectScriptFail => ⟨[⟨.execBox idx, true⟩], [], none, ev0, true⟩
  | .injectInputFail _ => ⟨[⟨.execBox idx, true⟩], [], none, ev0, true⟩
  | .copyExeFail => ⟨[⟨.execBox idx, true⟩], [], none, ev0, true⟩
  | .ok =>
    if env.runOk then
      let order := shuffleJudgeResults env.draws cs.cases.enum
      let out := judgeCaseSetLoop env.blocks order.length ev0 0 [] order
      match out.2.2 with
      | some _ => ⟨[⟨.execBox idx, true⟩], out.1, none, out.2.1, false⟩
      | none =>
        let r := out.2.1.evaluate
        ⟨[⟨.execBox idx, true⟩], out.1, some ⟨r.1, r.2, 0, 0⟩, out.2.1, false⟩
    else ⟨[⟨.execBox idx, false⟩], [], none, ev0, true⟩

/-- Apply the keyed per-case row updates to a set's rows. -/
def applyUpds (rows : List CaseRowData) (upds : List (Nat × CaseRowData)) : List CaseRowData :=
  upds.foldl (fun rs u => rs.set u.1 u.2) rows

/-- The mutable state of the job's loop over case sets. -/
structure LoopState where
  eval : SimpleEvaluator
  execTime : Nat
  memoryUsage : Int
  setRows : List SetRowData
  caseRows : List (List CaseRowData)
  fates : List SandboxFate
deriving Repr, DecidableEq

/-- One non-breaking iteration of the job's loop over `JudgeSetResults`:
install a fresh case-set evaluator via `eval.next`, execute and judge the
set, write the rows it produced, and fold the set row's metrics into the
submission accumulators with `MaxDuration`/`MaxLong` (a set whose row was
not written contributes its previously fetched blank values). -/
def setsLoopStep (idx : Nat) (cs : CaseSet) (env : SetEnv) (st : LoopState) : LoopState :=
  let p := st.eval.next (some cs)
  let ev0 := p.2.getD (newSimpleCaseSetEvaluator cs)
  let out := processSet idx cs env ev0
  let setRowVal := out.setRow.getD (st.setRows.getD idx blankSetRow)
  { eval := { p.1 with lastSet := some out.ev }
    execTime := max st.execTime setRowVal.execTime
    memoryUsage := max st.memoryUsage setRowVal.memoryUsage
    setRows :=
      match out.setRow with
      | some row => st.setRows.set idx row
      | none => st.setRows
    caseRows := st.caseRows.set idx (applyUpds (st.caseRows.getD idx []) out.caseUpds)
    fates := st.fates ++ out.fates }

/-- The job's loop over `JudgeSetResults` (lines 132–142 of the source).
An `executeCaseSet` error breaks the loop, leaving every remaining set
untouched; the error returned by `judgeCaseSet` is ignored, so the loop
continues past it. -/
def setsLoop : List (Nat × CaseSet × SetEnv) → LoopState → LoopState
  | [], st => st
  | (idx, cs, env) :: rest, st =>
    let p := st.eval.next (some cs)
    let ev0 := p.2.getD (newSimpleCaseSetEvaluator cs)
    let out := processSet idx cs env ev0
    if out.hardErr then
      { st with eval := { p.1 with lastSet := some out.ev }, fates := st.fates ++ out.fates }
    else
      setsLoop rest (setsLoopStep idx cs env st)

/-- Everything `judgementJob.Run` leaves behind: the submission row written
by the deferred update, the set and case rows, the trace of sandboxes that
were created (with their fate), and whether the status-change notification
was emitted. -/
structure RunOutcome where
  sub : SubRowData
  setRows : List SetRowData
  caseRows : List (List CaseRowData)
  sandboxes : List SandboxFate
  notified : Bool
deriving Repr, DecidableEq

/-- `markAs` over the set rows: update every `JudgeSetResult` status. -/
def markAsSets (rows : List SetRowData) (st : JudgementStatus) : List SetRowData :=
  rows.map (fun r => { r with status := st })

/-- `markAs` over the case rows: update every `JudgeResult` status. -/
def markAsCases (rows : List (List CaseRowData)) (st : JudgementStatus) :
    List (List CaseRowData) :=
  rows.map (fun s => s.map (fun r => { r with status := st }))

/-- `judgementJob.Run` for a Normal (Simple evaluator) submission.  The
deferred block persists the accumulators and notifies on every path; the
compile sandbox, when `compile` returned it, is removed by `Close`. -/
def runJob (sets : List CaseSet) (cenv : CompileEnv) (senvs : List SetEnv) : RunOutcome :=
  let setRows0 := sets.map (fun _ => blankSetRow)
  let caseRows0 := sets.map (fun cs => cs.cases.map (fun _ => blankCaseRow))
  let compileFates : List SandboxFate :=
    match cenv with
    | .createFail => []
    | .injectFail => [⟨.compileBox, false⟩]
    | .runFail => [⟨.compileBox, false⟩]
    | .ok _ => [⟨.compileBox, true⟩]
  match cenv with
  | .ok res =>
    if res.status = .finished then
      let pairs := (sets.zip senvs).enum
      let stF := setsLoop pairs ⟨newSimpleEvaluator, 0, 0, setRows0, caseRows0, []⟩
      let r := stF.eval.evaluate
      ⟨⟨r.1, r.2, stF.execTime, stF.memoryUsage⟩, stF.setRows, stF.caseRows,
        compileFates ++ stF.fates, true⟩
    else
      ⟨⟨.compileError, 0, 0, 0⟩, markAsSets setRows0 .compileError,
        markAsCases caseRows0 .compileError, compileFates, true⟩
  | _ =>
    let r := newSimpleEvaluator.evaluate
    ⟨⟨r.1, r.2, 0, 0⟩, markAsSets setRows0 .unknownError,
      markAsCases caseRows0 .unknownError, compileFates, true⟩

/-! ## Claims -/

/-- C1.  The claim requires every persisted `JudgeSetResult.execTime` and
`memoryUsage` to be the maximum over the set's cases, and the submission's
metrics to be the maximum over all per-case results.  The source declares
`maxExecTime`/`maxMemoryUsage` in `judgeCaseSet` but never assigns them, so
the set row and hence the submission row always persist zero.  On a
fully-accepted one-case run whose case records exec time 100 and 2 KiB, the
set row and submission row both record 0. -/
theorem C1_set_and_submission_metrics_are_zero_not_max :
    (runJob [⟨100, [⟨"1 2\n", "3\n"⟩]⟩] (.ok ⟨.finished, 0, 0, "", "", 0⟩)
        [⟨.ok, true, [.ok ⟨.finished, 100, 2048, "3\n", "", 0⟩], [0]⟩]).caseRows =
      [[⟨.accepted, 100, 2⟩]] ∧
    (runJob [⟨100, [⟨"1 2\n", "3\n"⟩]⟩] (.ok ⟨.finished, 0, 0, "", "", 0⟩)
        [⟨.ok, true, [.ok ⟨.finished, 100, 2048, "3\n", "", 0⟩], [0]⟩]).setRows =
      [⟨.accepted, 100, 0, 0⟩] ∧
    (runJob [⟨100, [⟨"1 2\n", "3\n"⟩]⟩] (.ok ⟨.finished, 0, 0, "", "", 0⟩)
        [⟨.ok, true, [.ok ⟨.finished, 100, 2048, "3\n", "", 0⟩], [0]⟩]).sub.execTime = 0 ∧
    (runJob [⟨100, [⟨"1 2\n", "3\n"⟩]⟩] (.ok ⟨.finished, 0, 0, "", "", 0⟩)
        [⟨.ok, true, [.ok ⟨.finished, 100, 2048, "3\n", "", 0⟩], [0]⟩]).sub.memoryUsage
      = 0 := by
  decide

/-- C2.  The claim requires every created sandbox to be destroyed before
`Run` returns.  When the per-set exec sandbox is created successfully but
`w.Run` fails, `executeCaseSet` returns the error without removing the
worker, and the job's loop breaks, so that sandbox is never destroyed;
likewise `compile` leaks the compile sandbox when the source-code inject
fails (it returns `(nil, nil)` and `Close` sees `j.compiled == nil`). -/
theorem C2_exec_sandbox_leaked_when_run_fails :
    (runJob [⟨100, [⟨"1 2\n", "3\n"⟩]⟩] (.ok ⟨.finished, 0, 0, "", "", 0⟩)
        [⟨.ok, false, [], [0]⟩]).sandboxes =
      [⟨.compileBox, true⟩, ⟨.execBox 0, false⟩] ∧
    (runJob [⟨100, [⟨"1 2\n", "3\n"⟩]⟩] CompileEnv.injectFail []).sandboxes =
      [⟨.compileBox, false⟩] := by
  decide

/-- C3.  If the compile result's sandbox status is not Finished, the
submission's persisted row is `(CompileError, 0, 0, 0)`, every set row and
every case row is marked CompileError, and no exec sandbox is ever created
(the only sandbox in the trace is the compile one). -/
theorem C3_compile_error_marks_everything (sets : List CaseSet) (senvs : List SetEnv)
    (res : ExecResult) (h : res.status ≠ .finished) :
    let o := runJob sets (.ok res) senvs
    o.sub = ⟨.compileError, 0, 0, 0⟩ ∧
    (∀ r ∈ o.setRows, r.status = .compileError) ∧
    (∀ rs ∈ o.caseRows, ∀ r ∈ rs, r.status = .compileError) ∧
    (∀ f ∈ o.sandboxes, f.kind = .compileBox) := by
  intro o
  have ho : o = ⟨⟨.compileError, 0, 0, 0⟩,
      markAsSets (sets.map (fun _ => blankSetRow)) .compileError,
      markAsCases (sets.map (fun cs => cs.cases.map (fun _ => blankCaseRow))) .compileError,
      [⟨.compileBox, true⟩], true⟩ := by
    simp only [o, runJob, if_neg h]
  refine ⟨by rw [ho], ?_, ?_, ?_⟩
  · rw [ho]
    intro r hr
    simp only [markAsSets, List.mem_map] at hr
    obtain ⟨y, -, rfl⟩ := hr
    rfl
  · rw [ho]
    intro rs hrs r hr
    simp only [markAsCases, List.mem_map] at hrs
    obtain ⟨y, -, rfl⟩ := hrs
    simp only [List.mem_map] at hr
    obtain ⟨z, -, rfl⟩ := hr
    rfl
  · rw [ho]
    intro f hf
    simp only [List.mem_singleton] at hf
    rw [hf]

/-- Witness for C3 at a concrete compile result with status RuntimeError. -/
theorem C3_compile_error_marks_everything_witness :
    (runJob [⟨100, [⟨"1 2\n", "3\n"⟩]⟩] (.ok ⟨.runtimeError, 0, 0, "", "", 0⟩) []).sub =
      ⟨.compileError, 0, 0, 0⟩ :=
  (C3_compile_error_marks_everything [⟨100, [⟨"1 2\n", "3\n"⟩]⟩] []
    ⟨.runtimeError, 0, 0, "", "", 0⟩ (by decide)).1

/-- C4.  The Simple evaluator's per-case rule: on a Finished result, a
byte-exact stdout match is Accepted, a match after `TrimSpace` on both sides
is PresentationError, anything else is WrongAnswer; MLE/TLE/RE results map
to the corresponding judgement status; the per-case point is always 0. -/
theorem C4_simple_per_case_classification (e : SimpleCaseSetEvaluator) (r : ExecResult)
    (tc : TestCase) :
    (e.next (some r) tc).1.2 = 0 ∧
    (r.status = .finished → r.stdout = tc.output → (e.next (some r) tc).1.1 = .accepted) ∧
    (r.status = .finished → r.stdout ≠ tc.output →
      trimSpace r.stdout = trimSpace tc.output →
      (e.next (some r) tc).1.1 = .presentationError) ∧
    (r.status = .finished → trimSpace r.stdout ≠ trimSpace tc.output →
      (e.next (some r) tc).1.1 = .wrongAnswer) ∧
    (r.status = .memoryLimitExceeded → (e.next (some r) tc).1.1 = .memoryLimitExceeded) ∧
    (r.status = .timeLimitExceeded → (e.next (some r) tc).1.1 = .timeLimitExceeded) ∧
    (r.status = .runtimeError → (e.next (some r) tc).1.1 = .runtimeError) := by
  refine ⟨rfl, ?_, ?_, ?_, ?_, ?_, ?_⟩ <;> intro h
  · intro hb
    simp [SimpleCaseSetEvaluator.next, classifySimple, h, hb]
  · intro hb ht
    simp [SimpleCaseSetEvaluator.next, classifySimple, h, hb, ht]
  · intro ht
    have hb : r.stdout ≠ tc.output := fun hb => ht (by rw [hb])
    simp [SimpleCaseSetEvaluator.next, classifySimple, h, hb, ht]
  · simp [SimpleCaseSetEvaluator.next, classifySimple, h]
  · simp [SimpleCaseSetEvaluator.next, classifySimple, h]
  · simp [SimpleCaseSetEvaluator.next, classifySimple, h]

/-- Witness for C4: exact match, trimmed match, mismatch and TLE, each at a
concrete result. -/
theorem C4_simple_per_case_classification_witness :
    (SimpleCaseSetEvaluator.next ⟨100, []⟩ (some ⟨.finished, 0, 0, "3\n", "", 0⟩)
        ⟨"1 2\n", "3\n"⟩).1.1 = .accepted ∧
    (SimpleCaseSetEvaluator.next ⟨100, []⟩ (some ⟨.finished, 0, 0, " 3\n", "", 0⟩)
        ⟨"1 2\n", "3\n"⟩).1.1 = .presentationError ∧
    (SimpleCaseSetEvaluator.next ⟨100, []⟩ (some ⟨.finished, 0, 0, "4\n", "", 0⟩)
        ⟨"1 2\n", "3\n"⟩).1.1 = .wrongAnswer ∧
    (SimpleCaseSetEvaluator.next ⟨100, []⟩ (some ⟨.timeLimitExceeded, 0, 0, "", "", 0⟩)
        ⟨"1 2\n", "3\n"⟩).1.1 = .timeLimitExceeded ∧
    (SimpleCaseSetEvaluator.next ⟨100, []⟩ (some ⟨.finished, 0, 0, "3\n", "", 0⟩)
        ⟨"1 2\n", "3\n"⟩).1.2 = 0 :=
  ⟨(C4_simple_per_case_classification ⟨100, []⟩ ⟨.finished, 0, 0, "3\n", "", 0⟩
      ⟨"1 2\n", "3\n"⟩).2.1 rfl (by decide),
   (C4_simple_per_case_classification ⟨100, []⟩ ⟨.finished, 0, 0, " 3\n", "", 0⟩
      ⟨"1 2\n", "3\n"⟩).2.2.1 rfl (by decide) (by decide),
   (C4_simple_per_case_classification ⟨100, []⟩ ⟨.finished, 0, 0, "4\n", "", 0⟩
      ⟨"1 2\n", "3\n"⟩).2.2.2.1 rfl (by decide),
   (C4_simple_per_case_classification ⟨100, []⟩ ⟨.timeLimitExceeded, 0, 0, "", "", 0⟩
      ⟨"1 2\n", "3\n"⟩).2.2.2.2.2.1 rfl,
   (C4_simple_per_case_classification ⟨100, []⟩ ⟨.finished, 0, 0, "3\n", "", 0⟩
      ⟨"1 2\n", "3\n"⟩).1⟩

/-- C5, counterexample.  The claim says a result with sandbox status
OutputLimitExceeded is mapped to the judgement status OutputLimitExceeded;
the Simple evaluator's switch has no such case, so it falls to the default
branch instead. -/
theorem C5_counterexample_ole_not_mapped :
    (SimpleCaseSetEvaluator.next ⟨100, []⟩ (some ⟨.outputLimitExceeded, 0, 0, "", "", 0⟩)
        ⟨"1 2\n", "3\n"⟩).1.1 ≠ .outputLimitExceeded := by
  decide

/-- C5, amended.  A result with sandbox status OutputLimitExceeded falls to
the Simple evaluator's default branch and is classified UnknownError. -/
theorem C5_ole_maps_to_unknown_error (e : SimpleCaseSetEvaluator) (r : ExecResult)
    (tc : TestCase) (h : r.status = .outputLimitExceeded) :
    (e.next (some r) tc).1.1 = .unknownError := by
  simp [SimpleCaseSetEvaluator.next, classifySimple, h]

/-- Witness for the amended C5 at a concrete result. -/
theorem C5_ole_maps_to_unknown_error_witness :
    (SimpleCaseSetEvaluator.next ⟨100, []⟩ (some ⟨.outputLimitExceeded, 0, 0, "", "", 0⟩)
        ⟨"1 2\n", "3\n"⟩).1.1 = .unknownError :=
  C5_ole_maps_to_unknown_error ⟨100, []⟩ ⟨.outputLimitExceeded, 0, 0, "", "", 0⟩
    ⟨"1 2\n", "3\n"⟩ rfl

/-- Helper: with a stream of well-formed blocks, the per-case loop started at
position `i` over a suffix of `i + length` cases fails (with ErrParseOutput)
exactly when the stream ends more than one case short. -/
theorem judgeCaseSetLoop_boundary (blocks : List (Except Unit ExecResult))
    (hb : ∀ b ∈ blocks, ∃ r, b = Except.ok r) :
    ∀ (order : List (Nat × TestCase)) (i : Nat) (ev : SimpleCaseSetEvaluator)
      (acc : List (Nat × CaseRowData)) (n : Nat),
      n = i + order.length → i ≤ blocks.length →
      (judgeCaseSetLoop blocks n ev i acc order).2.2 =
        if blocks.length + 1 < n then some JobErr.parseOutput else none := by
  intro order
  induction order with
  | nil =>
    intro i ev acc n hn hi
    simp only [judgeCaseSetLoop]
    rw [if_neg (by simp at hn; omega)]
  | cons head rest ih =>
    intro i ev acc n hn hi
    obtain ⟨o, tc⟩ := head
    have hlen : n = i + (rest.length + 1) := by simpa using hn
    rcases Nat.lt_or_ge i blocks.length with hlt | hge
    · obtain ⟨r, hr⟩ := hb blocks[i] (List.getElem?_mem (List.getElem?_eq_getElem hlt))
      have hbi : blocks[i]? = some (Except.ok r) := by
        rw [List.getElem?_eq_getElem hlt, hr]
      simp only [judgeCaseSetLoop, parserNext, hbi]
      exact ih (i + 1) _ _ n (by omega) (by omega)
    · have hieq : i = blocks.length := Nat.le_antisymm hi hge
      have hbi : blocks[i]? = none := List.getElem?_eq_none hge
      simp only [judgeCaseSetLoop, parserNext, hbi]
      by_cases hlast : i = n - 1
      · rw [if_pos hlast]
        have hrest : rest = [] := List.eq_nil_of_length_eq_zero (by omega)
        subst hrest
        simp only [judgeCaseSetLoop]
        rw [if_neg (by omega)]
      · rw [if_neg hlast]
        rw [if_pos (by omega)]

/-- C7.  With a well-formed block stream for a set of `N` cases, the
per-case loop of `judgeCaseSet` fails with `ErrParseOutput` exactly when the
stream holds fewer than `N - 1` blocks: only a block missing before position
`N - 1` is fatal; at least `N - 1` blocks must have been produced for the
set to go through.  (The parser's end-of-stream behaviour is not under
`src/` and is modelled from the spec.) -/
theorem C7_missing_block_fatal_before_last (blocks : List (Except Unit ExecResult))
    (order : List (Nat × TestCase)) (ev : SimpleCaseSetEvaluator)
    (hb : ∀ b ∈ blocks, ∃ r, b = Except.ok r) :
    ((judgeCaseSetLoop blocks order.length ev 0 [] order).2.2 = some JobErr.parseOutput ↔
      blocks.length + 1 < order.length) ∧
    ((judgeCaseSetLoop blocks order.length ev 0 [] order).2.2 = none ↔
      order.length ≤ blocks.length + 1) := by
  have h := judgeCaseSetLoop_boundary blocks hb order 0 ev [] order.length (by simp)
    (Nat.zero_le _)
  rw [h]
  by_cases hc : blocks.length + 1 < order.length
  · rw [if_pos hc]
    refine ⟨⟨fun _ => hc, fun _ => rfl⟩, ⟨fun hx => by simp at hx, fun hx => by omega⟩⟩
  · rw [if_neg hc]
    refine ⟨⟨fun hx => by simp at hx, fun hx => absurd hx hc⟩,
      ⟨fun _ => by omega, fun _ => rfl⟩⟩

/-- Helper: when the stream supplies one well-formed block per case after a
prefix of `pre.length` already-consumed blocks — the block for a case being
the runner's result `f` of that case — the loop succeeds, extends the
evaluator with every case's classification, and emits one keyed row per
case. -/
theorem judgeCaseSetLoop_allOk (f : Nat × TestCase → ExecResult) :
    ∀ (order : List (Nat × TestCase)) (pre : List (Except Unit ExecResult)) (n : Nat)
      (ev : SimpleCaseSetEvaluator) (acc : List (Nat × CaseRowData)),
      judgeCaseSetLoop (pre ++ order.map (fun oc => Except.ok (f oc))) n ev pre.length acc
          order =
        (acc.reverse ++ order.map (fun oc =>
            (oc.1, ⟨classifySimple (some (f oc)) oc.2, (f oc).execTime,
              Int.tdiv (f oc).memoryUsage 1024⟩)),
          order.foldl (fun e oc => (e.next (some (f oc)) oc.2).2) ev, none) := by
  intro order
  induction order with
  | nil =>
    intro pre n ev acc
    simp [judgeCaseSetLoop]
  | cons oc rest ih =>
    intro pre n ev acc
    have hbi : (pre ++ (oc :: rest).map (fun oc => Except.ok (f oc)))[pre.length]? =
        some (Except.ok (f oc)) := by
      rw [List.getElem?_append_right (Nat.le_refl _)]
      simp
    simp only [judgeCaseSetLoop, parserNext, hbi]
    have hre : pre ++ (oc :: rest).map (fun oc => Except.ok (f oc)) =
        (pre ++ [Except.ok (f oc)]) ++ rest.map (fun oc => Except.ok (f oc)) := by
      simp
    have hle : pre.length + 1 = (pre ++ [Except.ok (f oc)]).length := by simp
    rw [hre, hle, ih (pre ++ [Except.ok (f oc)]) n ((ev.next (some (f oc)) oc.2).2)]
    simp [SimpleCaseSetEvaluator.next]

/-- C10.  For every successfully parsed test case the loop of
`judgeCaseSet` persists `JudgeResult.execTime` exactly as reported by the
sandbox result and `JudgeResult.memoryUsage` as the result's byte count
divided by 1024 with Go's truncating integer division (bytes → KiB): with
one block per case produced by the runner behaviour `f`, every emitted row
records `(f oc).execTime` unchanged and `(f oc).memoryUsage.tdiv 1024`. -/
theorem C10_memory_persisted_in_kib (f : Nat × TestCase → ExecResult)
    (order : List (Nat × TestCase)) (n : Nat) (ev : SimpleCaseSetEvaluator) :
    (judgeCaseSetLoop (order.map (fun oc => Except.ok (f oc))) n ev 0 [] order).1 =
      order.map (fun oc =>
        (oc.1, ⟨classifySimple (some (f oc)) oc.2, (f oc).execTime,
          Int.tdiv (f oc).memoryUsage 1024⟩)) := by
  have h := judgeCaseSetLoop_allOk f order [] n ev []
  simp only [List.nil_append, List.length_nil] at h
  rw [h]
  simp

/-- Helper: replacing position `k` by `x` and pulling the replaced element
to the front permutes the list. -/
theorem getElem_cons_set_perm :
    ∀ (l : List α) (k : Nat) (x : α) (hk : k < l.length),
      (l[k] :: l.set k x).Perm (x :: l)
  | a :: t, 0, x, _ => by
    simpa using List.Perm.swap x a t
  | a :: t, k + 1, x, h => by
    have ht : k < t.length := by simpa using h
    have ih := getElem_cons_set_perm t k x ht
    show (t[k] :: a :: t.set k x).Perm (x :: a :: t)
    exact ((List.Perm.swap a t[k] _).trans (ih.cons a)).trans (List.Perm.swap x a t)

/-- Helper: swapping two positions with `i < j` permutes the list. -/
theorem listSwap_perm_lt :
    ∀ (l : List α) (i j : Nat) (hij : i < j) (hj : j < l.length),
      ((l.set i l[j]).set j l[i]).Perm l
  | c :: t, 0, k + 1, _, hj => by
    have hk : k < t.length := by simpa using hj
    show (((c :: t).set 0 t[k]).set (k + 1) c).Perm (c :: t)
    simpa [List.set] using getElem_cons_set_perm t k c hk
  | c :: t, m + 1, k + 1, hij, hj => by
    have hk : k < t.length := by simpa using hj
    have hmk : m < k := by omega
    have ih := listSwap_perm_lt t m k hmk hk
    show ((c :: (t.set m t[k])).set (k + 1) t[m]).Perm (c :: t)
    simpa [List.set] using ih.cons c

/-- Helper: `listSwap` permutes its list for any indices. -/
theorem listSwap_perm (l : List α) (i j : Nat) : (listSwap l i j).Perm l := by
  rcases hi : l[i]? with _ | a
  · simp only [listSwap, hi]
    exact List.Perm.refl l
  · rcases hj : l[j]? with _ | b
    · simp only [listSwap, hi, hj]
      exact List.Perm.refl l
    · simp only [listSwap, hi, hj]
      obtain ⟨hil, hia⟩ := List.getElem?_eq_some_iff.mp hi
      obtain ⟨hjl, hjb⟩ := List.getElem?_eq_some_iff.mp hj
      rcases Nat.lt_trichotomy i j with hlt | heq | hgt
      · have := listSwap_perm_lt l i j hlt hjl
        rwa [hia, hjb] at this
      · subst heq
        have hab : a = b := by rw [← hia, ← hjb]
        subst hab
        rw [List.set_set]
        have hsl : l.set i a = l := by
          apply List.ext_getElem?
          intro n
          rcases Decidable.em (i = n) with rfl | hne
          · rw [List.getElem?_set_self hil, List.getElem?_eq_getElem hil, hia]
          · rw [List.getElem?_set_ne hne]
        rw [hsl]
      · rw [List.set_comm b a l (by omega)]
        have := listSwap_perm_lt l j i hgt hil
        rwa [hia, hjb] at this

/-- Helper: every pass of the Fisher–Yates loop permutes the list. -/
theorem fisherYatesAux_perm (draws : List Nat) :
    ∀ (i : Nat) (l : List α), (fisherYatesAux draws l i).Perm l
  | 0, l => listSwap_perm l 0 _
  | i' + 1, l =>
    (fisherYatesAux_perm draws i' _).trans (listSwap_perm l (i' + 1) _)

/-- Helper: `shuffleJudgeResults` produces a permutation of its input for
every sequence of random draws. -/
theorem shuffleJudgeResults_perm (draws : List Nat) (l : List α) :
    (shuffleJudgeResults draws l).Perm l := by
  cases l with
  | nil => exact List.Perm.refl _
  | cons a t => exact fisherYatesAux_perm draws _ _

/-- The DB's keyed persistence of per-case rows: the row finally recorded
for the test case with original index `o` is the update keyed `o`
(`db.Model(&JudgeResult{ID: r.ID}).Updates`), `none` when that case was
never judged. -/
def assembleRows (n : Nat) (upds : List (Nat × CaseRowData)) : List (Option CaseRowData) :=
  (List.range n).map (fun o => (upds.find? (fun u => u.1 == o)).map Prod.snd)

/-- One case set judged end-to-end against a deterministic program, whose
behaviour is an oracle `exec` from the input injected at a slot to the
runner's block for that slot: `createJudgementWorker` shuffles the
index-tagged cases and injects the `i`-th shuffled input at
`/tmp/input/i.txt`, the batch runner emits one block per slot, and
`judgeCaseSet`'s loop classifies the parser's `i`-th block against the
`i`-th shuffled case, persisting each row keyed by its case's identity. -/
def judgeSetOracle (draws : List Nat) (cases : List TestCase)
    (exec : String → ExecResult) : List (Option CaseRowData) :=
  let order := shuffleJudgeResults draws cases.enum
  let blocks := order.map (fun oc => Except.ok (exec oc.2.input))
  assembleRows cases.length
    (judgeCaseSetLoop blocks order.length (newSimpleCaseSetEvaluator ⟨0, cases⟩) 0 [] order).1

/-- Modelled from the spec: the naive in-order judgement, which runs the
same program on each case's input in declaration order and classifies each
result against its own case. -/
def naiveJudgeRows (cases : List TestCase) (exec : String → ExecResult) :
    List (Option CaseRowData) :=
  cases.map (fun c => some ⟨classifySimple (some (exec c.input)) c,
    (exec c.input).execTime, Int.tdiv (exec c.input).memoryUsage 1024⟩)

/-- Helper: assembling rows keyed by original index from any permutation of
the index-tagged cases recovers the per-case map in declaration order. -/
theorem assembleRows_perm_enum (cases : List TestCase) (row : TestCase → CaseRowData)
    (order : List (Nat × TestCase)) (hperm : order.Perm cases.enum) :
    assembleRows cases.length (order.map (fun oc => (oc.1, row oc.2))) =
      cases.map (fun c => some (row c)) := by
  apply List.ext_getElem?
  intro o
  rcases Nat.lt_or_ge o cases.length with ho | ho
  · rw [assembleRows, List.getElem?_map, List.getElem?_map,
      List.getElem?_range ho, List.getElem?_eq_getElem ho]
    have hfind : (order.map (fun oc => (oc.1, row oc.2))).find? (fun u => u.1 == o) =
        some (o, row cases[o]) := by
      have hmem : (o, cases[o]) ∈ cases.enum :=
        List.mem_enum_iff_getElem?.mpr (List.getElem?_eq_getElem ho)
      have hmemupd : (o, row cases[o]) ∈ order.map (fun oc => (oc.1, row oc.2)) := by
        exact List.mem_map_of_mem _ (hperm.mem_iff.mpr hmem)
      rcases hf : (order.map (fun oc => (oc.1, row oc.2))).find? (fun u => u.1 == o)
        with _ | u
      · exact absurd (by simp) (List.find?_eq_none.mp hf (o, row cases[o]) hmemupd)
      · have huo : u.1 = o := by simpa using List.find?_some hf
        obtain ⟨oc, hocmem, hoceq⟩ := List.mem_map.mp (List.mem_of_find?_eq_some hf)
        have hocenum : cases[oc.1]? = some oc.2 :=
          List.mem_enum_iff_getElem?.mp (hperm.mem_iff.mp hocmem)
        have ho1 : oc.1 = o := by rw [← huo, ← hoceq]
        rw [ho1, List.getElem?_eq_getElem ho] at hocenum
        have ho2 : oc.2 = cases[o] := (Option.some.inj hocenum).symm
        have hu : u = (o, row cases[o]) := by rw [← hoceq, ho1, ho2]
        rw [hf, hu]
    simp only [Option.map_some']
    rw [hfind]
    rfl
  · rw [List.getElem?_eq_none, List.getElem?_eq_none]
    · simpa using ho
    · simpa [assembleRows] using ho

/-- C9.  For every sequence of random draws — hence every permutation the
cryptographically seeded shuffle can produce — judging a case set in the
shuffled order, with each input injected at the slot of its shuffled
position and the parser's `i`-th result classified against the case at
shuffled position `i`, persists for every test case exactly the verdict the
naive in-order judgement assigns it on the same per-input outputs: the final
rows are independent of the permutation chosen. -/
theorem C9_shuffle_preserves_verdicts (draws : List Nat) (cases : List TestCase)
    (exec : String → ExecResult) :
    judgeSetOracle draws cases exec = naiveJudgeRows cases exec := by
  have hupds := judgeCaseSetLoop_allOk (fun oc => exec oc.2.input)
    (shuffleJudgeResults draws cases.enum) [] (shuffleJudgeResults draws cases.enum).length
    (newSimpleCaseSetEvaluator ⟨0, cases⟩) []
  simp only [List.nil_append, List.length_nil] at hupds
  simp only [judgeSetOracle, hupds, List.reverse_nil, List.nil_append]
  exact assembleRows_perm_enum cases
    (fun c => ⟨classifySimple (some (exec c.input)) c, (exec c.input).execTime,
      Int.tdiv (exec c.input).memoryUsage 1024⟩)
    (shuffleJudgeResults draws cases.enum) (shuffleJudgeResults_perm draws cases.enum)

/-- Helper: the fold of `evaluateStatuses` returns one of its inputs. -/
theorem foldl_maxStatus_mem :
    ∀ (xs : List JudgementStatus) (x : JudgementStatus),
      xs.foldl (fun a b => if statusPriority a < statusPriority b then b else a) x ∈ x :: xs := by
  intro xs
  induction xs with
  | nil => intro x; simp
  | cons y ys ih =>
    intro x
    simp only [List.foldl_cons]
    have h := ih (if statusPriority x < statusPriority y then y else x)
    rcases List.mem_cons.mp h with hh | hh
    · rw [hh]
      by_cases hxy : statusPriority x < statusPriority y
      · rw [if_pos hxy]; exact List.mem_cons_of_mem _ (List.mem_cons_self _ _)
      · rw [if_neg hxy]; exact List.mem_cons_self _ _
    · exact List.mem_cons_of_mem _ (List.mem_cons_of_mem _ hh)

/-- Helper: the fold of `evaluateStatuses` dominates every input's priority. -/
theorem foldl_maxStatus_ge :
    ∀ (xs : List JudgementStatus) (x z : JudgementStatus), z ∈ x :: xs →
      statusPriority z ≤
        statusPriority
          (xs.foldl (fun a b => if statusPriority a < statusPriority b then b else a) x) := by
  intro xs
  induction xs with
  | nil =>
    intro x z hz
    simp only [List.mem_singleton] at hz
    rw [hz]
    exact Nat.le_refl _
  | cons y ys ih =>
    intro x z hz
    simp only [List.foldl_cons]
    have hxm : statusPriority x ≤
        statusPriority (if statusPriority x < statusPriority y then y else x) := by
      by_cases hxy : statusPriority x < statusPriority y
      · rw [if_pos hxy]; exact Nat.le_of_lt hxy
      · rw [if_neg hxy]
    have hym : statusPriority y ≤
        statusPriority (if statusPriority x < statusPriority y then y else x) := by
      by_cases hxy : statusPriority x < statusPriority y
      · rw [if_pos hxy]
      · rw [if_neg hxy]; exact Nat.le_of_not_lt hxy
    have hhead := ih (if statusPriority x < statusPriority y then y else x) _
      (List.mem_cons_self _ _)
    rcases List.mem_cons.mp hz with rfl | hz'
    · exact Nat.le_trans hxm hhead
    · rcases List.mem_cons.mp hz' with rfl | hz''
      · exact Nat.le_trans hym hhead
      · exact ih _ z (List.mem_cons_of_mem _ hz'')

/-- Helper: only Accepted has priority 0. -/
theorem statusPriority_eq_zero (s : JudgementStatus) (h : statusPriority s = 0) :
    s = .accepted := by
  cases s <;> simp_all [statusPriority]

/-- Helper: the status fold is Accepted exactly for a nonempty multiset in
which every status is Accepted. -/
theorem evaluateStatuses_eq_accepted_iff (l : List JudgementStatus) :
    evaluateStatuses l = .accepted ↔ l ≠ [] ∧ ∀ s ∈ l, s = .accepted := by
  cases l with
  | nil => simp [evaluateStatuses]
  | cons x xs =>
    simp only [evaluateStatuses]
    constructor
    · intro h
      refine ⟨by simp, ?_⟩
      intro s hs
      have hge := foldl_maxStatus_ge xs x s hs
      rw [h] at hge
      exact statusPriority_eq_zero s (Nat.le_zero.mp hge)
    · rintro ⟨-, hall⟩
      exact hall _ (foldl_maxStatus_mem xs x)

/-- The point total the submission evaluator will report: everything already
folded plus the still-pending last set. -/
def pendingPoint (e : SimpleEvaluator) : Int :=
  e.point + (match e.lastSet with | none => 0 | some s => (s.evaluate).2)

/-- Helper: folding the last set into the accumulators realises the pending
point. -/
theorem foldLast_point (e : SimpleEvaluator) : (e.foldLast).point = pendingPoint e := by
  rcases h : e.lastSet with _ | s <;>
    simp [SimpleEvaluator.foldLast, pendingPoint, h]

/-- Helper: when a set has been started, the submission evaluator's final
point is the pending point. -/
theorem evaluate_snd_eq_pendingPoint (e : SimpleEvaluator) (s : SimpleCaseSetEvaluator)
    (h : e.lastSet = some s) : (e.evaluate).2 = pendingPoint e := by
  rw [SimpleEvaluator.evaluate, h]
  show (e.next none).1.point = pendingPoint e
  rw [SimpleEvaluator.next]
  exact foldLast_point e

/-- Helper: a written set row records exactly the point its case-set
evaluator awards, and a written row implies the set did not break the
loop. -/
theorem processSet_setRow_point (idx : Nat) (cs : CaseSet) (env : SetEnv)
    (e0 : SimpleCaseSetEvaluator) (row : SetRowData)
    (h : (processSet idx cs env e0).setRow = some row) :
    row.point = (((processSet idx cs env e0).ev).evaluate).2 ∧
      (processSet idx cs env e0).hardErr = false := by
  rcases hc : env.create <;> simp only [processSet, hc] at h ⊢ <;> try simp at h
  rcases hrun : env.runOk <;> simp only [hrun, if_true, if_false, Bool.false_eq_true] at h ⊢
  · simp at h
  · rcases hout : (judgeCaseSetLoop env.blocks (shuffleJudgeResults env.draws cs.cases.enum).length
        e0 0 [] (shuffleJudgeResults env.draws cs.cases.enum)).2.2 with _ | e <;>
      simp only [hout] at h ⊢
    · obtain rfl := (Option.some.inj h).symm
      simp
    · simp at h

/-- Helper: replacing one row changes the point sum by the difference of the
two rows' points. -/
theorem sum_map_point_set :
    ∀ (rows : List SetRowData) (idx : Nat) (row : SetRowData) (h : idx < rows.length),
      ((rows.set idx row).map (fun r => r.point)).sum =
        (rows.map (fun r => r.point)).sum + row.point - rows[idx].point
  | a :: t, 0, row, _ => by
    simp only [List.set, List.map_cons, List.sum_cons, List.getElem_cons_zero]
    omega
  | a :: t, idx + 1, row, h => by
    have ht : idx < t.length := by simpa using h
    have ih := sum_map_point_set t idx row ht
    simp only [List.set, List.map_cons, List.sum_cons, List.getElem_cons_succ, ih]
    omega

/-- Helper: while the loop keeps running, its evaluator keeps a last set. -/
theorem setsLoop_lastSet_isSome :
    ∀ (pairs : List (Nat × CaseSet × SetEnv)) (st : LoopState),
      st.eval.lastSet.isSome = true → ((setsLoop pairs st).eval.lastSet).isSome = true
  | [], st, h => h
  | (idx, cs, env) :: rest, st, h => by
    simp only [setsLoop]
    split
    · simp
    · exact setsLoop_lastSet_isSome rest _ rfl

/-- Helper: once the loop has processed at least one case set, the
evaluator's last set is present. -/
theorem setsLoop_cons_lastSet_isSome (q : Nat × CaseSet × SetEnv)
    (pairs : List (Nat × CaseSet × SetEnv)) (st : LoopState) :
    ((setsLoop (q :: pairs) st).eval.lastSet).isSome = true := by
  obtain ⟨idx, cs, env⟩ := q
  simp only [setsLoop]
  split
  · simp
  · exact setsLoop_lastSet_isSome pairs _ rfl

/-- Helper: a non-breaking set lets the loop continue through
`setsLoopStep`. -/
theorem setsLoop_cons_noBreak (idx : Nat) (cs : CaseSet) (env : SetEnv)
    (rest : List (Nat × CaseSet × SetEnv)) (st : LoopState)
    (h : (processSet idx cs env (newSimpleCaseSetEvaluator cs)).hardErr = false) :
    setsLoop ((idx, cs, env) :: rest) st = setsLoop rest (setsLoopStep idx cs env st) := by
  have h' : (processSet idx cs env ((st.eval.next (some cs)).2.getD
      (newSimpleCaseSetEvaluator cs))).hardErr = false := h
  simp only [setsLoop, h', Bool.false_eq_true, if_false]

/-- Helper: a written set row is stored at the set's index. -/
theorem setsLoopStep_setRows (idx : Nat) (cs : CaseSet) (env : SetEnv) (st : LoopState)
    (row : SetRowData)
    (h : (processSet idx cs env (newSimpleCaseSetEvaluator cs)).setRow = some row) :
    (setsLoopStep idx cs env st).setRows = st.setRows.set idx row := by
  have h' : (processSet idx cs env ((st.eval.next (some cs)).2.getD
      (newSimpleCaseSetEvaluator cs))).setRow = some row := h
  simp only [setsLoopStep, h']

/-- Helper: installing a new case-set evaluator leaves the pending point as
the accumulated point. -/
theorem next_some_fst_point (e : SimpleEvaluator) (cs : CaseSet) :
    ((e.next (some cs)).1).point = pendingPoint e := by
  show (e.foldLast).point = pendingPoint e
  exact foldLast_point e

/-- Helper: a processed set raises the pending point by exactly the written
row's point. -/
theorem setsLoopStep_pending (idx : Nat) (cs : CaseSet) (env : SetEnv) (st : LoopState)
    (row : SetRowData)
    (h : (processSet idx cs env (newSimpleCaseSetEvaluator cs)).setRow = some row) :
    pendingPoint (setsLoopStep idx cs env st).eval = pendingPoint st.eval + row.point := by
  obtain ⟨hpt, -⟩ := processSet_setRow_point idx cs env (newSimpleCaseSetEvaluator cs) row h
  show ((st.eval.next (some cs)).1).point +
      ((processSet idx cs env ((st.eval.next (some cs)).2.getD
        (newSimpleCaseSetEvaluator cs))).ev.evaluate).2 = pendingPoint st.eval + row.point
  rw [next_some_fst_point st.eval cs]
  have hpt' : row.point = ((processSet idx cs env ((st.eval.next (some cs)).2.getD
      (newSimpleCaseSetEvaluator cs))).ev.evaluate).2 := hpt
  rw [← hpt']

/-- Helper: the loop invariant.  Starting from a state whose unwritten rows
(at indices `k` and beyond) are blank, if every set is fully judged then the
points written into the set rows grow in step with the evaluator's pending
point. -/
theorem setsLoop_sum_invariant :
    ∀ (l : List (CaseSet × SetEnv)) (k : Nat) (st : LoopState),
      k + l.length ≤ st.setRows.length →
      (∀ (m : Nat) (hm : m < st.setRows.length), k ≤ m → st.setRows[m] = blankSetRow) →
      (∀ p ∈ l.enumFrom k,
        ((processSet p.1 p.2.1 p.2.2 (newSimpleCaseSetEvaluator p.2.1)).setRow).isSome
          = true) →
      ((setsLoop (l.enumFrom k) st).setRows.map (fun r => r.point)).sum +
          pendingPoint st.eval =
        (st.setRows.map (fun r => r.point)).sum +
          pendingPoint ((setsLoop (l.enumFrom k) st).eval) := by
  intro l
  induction l with
  | nil =>
    intro k st _ _ _
    rfl
  | cons q rest ih =>
    obtain ⟨cs, env⟩ := q
    intro k st hlen hblank hok
    simp only [List.length_cons] at hlen
    have hokhead := hok (k, cs, env) (by rw [List.enumFrom_cons]; exact List.mem_cons_self _ _)
    obtain ⟨row, hrow⟩ := Option.isSome_iff_exists.mp hokhead
    obtain ⟨hrowpt, hhard⟩ :=
      processSet_setRow_point k cs env (newSimpleCaseSetEvaluator cs) row hrow
    rw [List.enumFrom_cons, setsLoop_cons_noBreak k cs env _ st hhard]
    have hklen : k < st.setRows.length := by omega
    have hrows := setsLoopStep_setRows k cs env st row hrow
    have hlen' : (k + 1) + rest.length ≤ (setsLoopStep k cs env st).setRows.length := by
      rw [hrows, List.length_set]
      omega
    have hblank' : ∀ (m : Nat) (hm : m < (setsLoopStep k cs env st).setRows.length),
        k + 1 ≤ m → (setsLoopStep k cs env st).setRows[m] = blankSetRow := by
      intro m hm hkm
      have hm' : m < st.setRows.length := by
        rw [hrows, List.length_set] at hm
        exact hm
      have : (setsLoopStep k cs env st).setRows[m] = st.setRows[m] := by
        simp only [hrows]
        exact List.getElem_set_ne (by omega) _
      rw [this]
      exact hblank m hm' (by omega)
    have hok' : ∀ p ∈ rest.enumFrom (k + 1),
        ((processSet p.1 p.2.1 p.2.2 (newSimpleCaseSetEvaluator p.2.1)).setRow).isSome
          = true := by
      intro p hp
      exact hok p (by rw [List.enumFrom_cons]; exact List.mem_cons_of_mem _ hp)
    have hIH := ih (k + 1) (setsLoopStep k cs env st) hlen' hblank' hok'
    have hsum' : ((setsLoopStep k cs env st).setRows.map (fun r => r.point)).sum =
        (st.setRows.map (fun r => r.point)).sum + row.point := by
      rw [hrows, sum_map_point_set st.setRows k row hklen, hblank k hklen (Nat.le_refl k)]
      show _ + row.point - (0 : Int) = _
      omega
    have hpend' := setsLoopStep_pending k cs env st row hrow
    omega

/-- Helper: the set evaluator's point is the set point exactly on the
Accepted branch. -/
theorem evaluate_point_ite (e : SimpleCaseSetEvaluator) :
    (e.evaluate).2 = if (e.evaluate).1 = .accepted then e.setPoint else 0 := by
  rcases Decidable.em (evaluateStatuses e.statuses = .accepted) with h | h <;>
    simp [SimpleCaseSetEvaluator.evaluate, h]

/-- Helper: the set evaluator's status is the fold of its case statuses. -/
theorem evaluate_fst_eq_fold (e : SimpleCaseSetEvaluator) :
    (e.evaluate).1 = evaluateStatuses e.statuses := by
  rcases Decidable.em (evaluateStatuses e.statuses = .accepted) with h | h <;>
    simp [SimpleCaseSetEvaluator.evaluate, h]

/-- Helper: the sum of blank rows' points is zero. -/
theorem sum_blank_rows (sets : List CaseSet) :
    ((sets.map (fun _ => blankSetRow)).map (fun r => r.point)).sum = 0 := by
  induction sets with
  | nil => rfl
  | cons _ _ ih =>
    simp only [List.map_cons, List.sum_cons, ih]
    rfl

/-- C6, counterexample.  The claimed biconditional "set point = full
set.point iff set status Accepted" fails for a case set whose point is 0:
one WrongAnswer case yields set point 0, equal to the full set point, while
the status is not Accepted. -/
theorem C6_counterexample_zero_point_set :
    (((SimpleCaseSetEvaluator.next (newSimpleCaseSetEvaluator ⟨0, [⟨"in", "y"⟩]⟩)
        (some ⟨.finished, 0, 0, "x", "", 0⟩) ⟨"in", "y"⟩).2).evaluate).2 =
      (⟨0, [⟨"in", "y"⟩]⟩ : CaseSet).point ∧
    (((SimpleCaseSetEvaluator.next (newSimpleCaseSetEvaluator ⟨0, [⟨"in", "y"⟩]⟩)
        (some ⟨.finished, 0, 0, "x", "", 0⟩) ⟨"in", "y"⟩).2).evaluate).1 ≠ .accepted := by
  decide

/-- C6, amended.  The set's point is the full set point when the set status
is Accepted and 0 otherwise (so the claimed "iff" holds whenever the set
point is nonzero); the set status is Accepted exactly when at least one case
was judged and every judged case is Accepted; and for a run whose compile
finished and whose case sets were all fully judged, the submission's
persisted point is the sum of the persisted set rows' points. -/
theorem C6_set_point_rule_and_submission_sum :
    (∀ e : SimpleCaseSetEvaluator,
      (e.evaluate).2 = if (e.evaluate).1 = .accepted then e.setPoint else 0) ∧
    (∀ e : SimpleCaseSetEvaluator,
      ((e.evaluate).1 = .accepted ↔ e.statuses ≠ [] ∧ ∀ s ∈ e.statuses, s = .accepted)) ∧
    (∀ e : SimpleCaseSetEvaluator, e.setPoint ≠ 0 →
      ((e.evaluate).2 = e.setPoint ↔ (e.evaluate).1 = .accepted)) ∧
    (∀ (sets : List CaseSet) (senvs : List SetEnv) (res : ExecResult),
      res.status = .finished →
      (∀ p ∈ (sets.zip senvs).enum,
        ((processSet p.1 p.2.1 p.2.2 (newSimpleCaseSetEvaluator p.2.1)).setRow).isSome
          = true) →
      (runJob sets (.ok res) senvs).sub.point =
        ((runJob sets (.ok res) senvs).setRows.map (fun r => r.point)).sum) := by
  refine ⟨evaluate_point_ite, ?_, ?_, ?_⟩
  · intro e
    rw [evaluate_fst_eq_fold]
    exact evaluateStatuses_eq_accepted_iff _
  · intro e hne
    constructor
    · intro h
      rw [evaluate_point_ite] at h
      by_cases hacc : (e.evaluate).1 = .accepted
      · exact hacc
      · rw [if_neg hacc] at h
        exact absurd h.symm hne
    · intro h
      rw [evaluate_point_ite, if_pos h]
  · intro sets senvs res hres hok
    have hsub : (runJob sets (.ok res) senvs).sub.point =
        ((setsLoop ((sets.zip senvs).enum)
          ⟨newSimpleEvaluator, 0, 0, sets.map (fun _ => blankSetRow),
            sets.map (fun cs => cs.cases.map (fun _ => blankCaseRow)), []⟩).eval.evaluate).2 := by
      simp only [runJob]
      rw [if_pos hres]
    have hrows : (runJob sets (.ok res) senvs).setRows =
        (setsLoop ((sets.zip senvs).enum)
          ⟨newSimpleEvaluator, 0, 0, sets.map (fun _ => blankSetRow),
            sets.map (fun cs => cs.cases.map (fun _ => blankCaseRow)), []⟩).setRows := by
      simp only [runJob]
      rw [if_pos hres]
    rw [hsub, hrows]
    have hlen : 0 + (sets.zip senvs).length ≤
        (sets.map (fun _ => blankSetRow)).length := by
      simp
    have hblank : ∀ (m : Nat) (hm : m < (sets.map (fun _ => blankSetRow)).length),
        0 ≤ m → (sets.map (fun _ => blankSetRow))[m] = blankSetRow := by
      intro m hm _
      simp
    have key := setsLoop_sum_invariant (sets.zip senvs) 0
      ⟨newSimpleEvaluator, 0, 0, sets.map (fun _ => blankSetRow),
        sets.map (fun cs => cs.cases.map (fun _ => blankCaseRow)), []⟩ hlen hblank hok
    have hblanksum := sum_blank_rows sets
    obtain ⟨L, hL⟩ : ∃ L, sets.zip senvs = L := ⟨_, rfl⟩
    rw [hL] at key ⊢
    cases L with
    | nil =>
      show (SimpleEvaluator.evaluate newSimpleEvaluator).2 =
        ((sets.map (fun _ => blankSetRow)).map (fun r => r.point)).sum
      rw [hblanksum]
      rfl
    | cons z zs =>
      have hsome := setsLoop_cons_lastSet_isSome (0, z) (zs.enumFrom 1)
        ⟨newSimpleEvaluator, 0, 0, sets.map (fun _ => blankSetRow),
          sets.map (fun cs => cs.cases.map (fun _ => blankCaseRow)), []⟩
      obtain ⟨s, hs⟩ := Option.isSome_iff_exists.mp hsome
      rw [List.enum_cons]
      rw [evaluate_snd_eq_pendingPoint _ s hs]
      have key' : ((setsLoop ((0, z) :: List.enumFrom 1 zs)
            ⟨newSimpleEvaluator, 0, 0, sets.map (fun _ => blankSetRow),
              sets.map (fun cs => cs.cases.map (fun _ => blankCaseRow)), []⟩).setRows.map
                (fun r => r.point)).sum + (0 : Int) =
          ((sets.map (fun _ => blankSetRow)).map (fun r => r.point)).sum +
            pendingPoint ((setsLoop ((0, z) :: List.enumFrom 1 zs)
              ⟨newSimpleEvaluator, 0, 0, sets.map (fun _ => blankSetRow),
                sets.map (fun cs => cs.cases.map (fun _ => blankCaseRow)), []⟩).eval) := key
      omega

/-- Witness for the amended C6: a one-set accepted run whose submission
point equals the set-row sum, and the restored "iff" at a nonzero set
point. -/
theorem C6_set_point_rule_and_submission_sum_witness :
    (runJob [⟨100, [⟨"1 2\n", "3\n"⟩]⟩] (.ok ⟨.finished, 0, 0, "", "", 0⟩)
        [⟨.ok, true, [.ok ⟨.finished, 100, 2048, "3\n", "", 0⟩], [0]⟩]).sub.point =
      ((runJob [⟨100, [⟨"1 2\n", "3\n"⟩]⟩] (.ok ⟨.finished, 0, 0, "", "", 0⟩)
        [⟨.ok, true, [.ok ⟨.finished, 100, 2048, "3\n", "", 0⟩], [0]⟩]).setRows.map
          (fun r => r.point)).sum ∧
    ((SimpleCaseSetEvaluator.evaluate ⟨100, [.accepted]⟩).2 = 100 ↔
      (SimpleCaseSetEvaluator.evaluate ⟨100, [.accepted]⟩).1 = .accepted) :=
  ⟨C6_set_point_rule_and_submission_sum.2.2.2 [⟨100, [⟨"1 2\n", "3\n"⟩]⟩]
      [⟨.ok, true, [.ok ⟨.finished, 100, 2048, "3\n", "", 0⟩], [0]⟩]
      ⟨.finished, 0, 0, "", "", 0⟩ rfl (by decide),
   C6_set_point_rule_and_submission_sum.2.2.1 ⟨100, [.accepted]⟩ (by decide)⟩

/-- C8, counterexample.  The claim says any sandbox-create / run / parse
error stops the remaining case sets.  In the source the error returned by
`judgeCaseSet` is discarded (`j.judgeCaseSet(w, setEval, &r)`), so after a
parse error in the first set the second set is still judged: its row is
written (here Accepted with 20 points) instead of staying as it was. -/
theorem C8_counterexample_parse_error_does_not_stop_loop :
    (runJob [⟨100, [⟨"1 2\n", "3\n"⟩]⟩, ⟨20, [⟨"1 2\n", "3\n"⟩]⟩]
        (.ok ⟨.finished, 0, 0, "", "", 0⟩)
        [⟨.ok, true, [.error ()], [0]⟩,
         ⟨.ok, true, [.ok ⟨.finished, 100, 2048, "3\n", "", 0⟩], [0]⟩]).setRows =
      [blankSetRow, ⟨.accepted, 20, 0, 0⟩] := by
  decide

/-- C8, amended.  Only sandbox-create and run errors (the errors
`executeCaseSet` returns) stop the loop, leaving the set and case rows of
the remaining sets exactly as they were; a parse error abandons only the
current set and the loop continues (`judgeCaseSet`'s error never breaks it);
and the deferred finalisation always runs — every run, whatever its
environment, emits the status-change notification, and `Run` returns
normally on all paths. -/
theorem C8_hard_errors_stop_loop_finalisation_always_runs :
    (∀ (idx : Nat) (cs : CaseSet) (env : SetEnv) (rest : List (Nat × CaseSet × SetEnv))
        (st : LoopState),
      (processSet idx cs env (newSimpleCaseSetEvaluator cs)).hardErr = true →
      (setsLoop ((idx, cs, env) :: rest) st).setRows = st.setRows ∧
        (setsLoop ((idx, cs, env) :: rest) st).caseRows = st.caseRows) ∧
    (∀ (idx : Nat) (cs : CaseSet) (env : SetEnv) (e0 : SimpleCaseSetEvaluator),
      env.create = .ok → env.runOk = true →
      (processSet idx cs env e0).hardErr = false) ∧
    (∀ (sets : List CaseSet) (cenv : CompileEnv) (senvs : List SetEnv),
      (runJob sets cenv senvs).notified = true) := by
  refine ⟨?_, ?_, ?_⟩
  · intro idx cs env rest st h
    have h' : (processSet idx cs env ((st.eval.next (some cs)).2.getD
        (newSimpleCaseSetEvaluator cs))).hardErr = true := h
    constructor <;> simp [setsLoop, h']
  · intro idx cs env e0 h1 h2
    simp only [processSet, h1, h2, if_true]
    split <;> rfl
  · intro sets cenv senvs
    cases cenv with
    | ok res =>
      simp only [runJob]
      split <;> rfl
    | createFail => rfl
    | injectFail => rfl
    | runFail => rfl

/-- Witness for the amended C8: a run failure in the first of two sets
leaves the second set's rows blank; a parse error does not break the loop;
and a concrete run notifies. -/
theorem C8_hard_errors_stop_loop_finalisation_always_runs_witness :
    (setsLoop [(0, ⟨100, [⟨"1 2\n", "3\n"⟩]⟩, ⟨.ok, false, [], [0]⟩),
        (1, ⟨20, [⟨"1 2\n", "3\n"⟩]⟩, ⟨.ok, true, [], [0]⟩)]
        ⟨newSimpleEvaluator, 0, 0, [blankSetRow, blankSetRow],
          [[blankCaseRow], [blankCaseRow]], []⟩).setRows =
      [blankSetRow, blankSetRow] ∧
    (processSet 0 ⟨100, [⟨"1 2\n", "3\n"⟩]⟩ ⟨.ok, true, [.error ()], [0]⟩
      (newSimpleCaseSetEvaluator ⟨100, [⟨"1 2\n", "3\n"⟩]⟩)).hardErr = false ∧
    (runJob [⟨100, [⟨"1 2\n", "3\n"⟩]⟩] CompileEnv.createFail []).notified = true :=
  ⟨(C8_hard_errors_stop_loop_finalisation_always_runs.1 0 ⟨100, [⟨"1 2\n", "3\n"⟩]⟩
      ⟨.ok, false, [], [0]⟩ [(1, ⟨20, [⟨"1 2\n", "3\n"⟩]⟩, ⟨.ok, true, [], [0]⟩)]
      ⟨newSimpleEvaluator, 0, 0, [blankSetRow, blankSetRow],
        [[blankCaseRow], [blankCaseRow]], []⟩ (by decide)).1,
   C8_hard_errors_stop_loop_finalisation_always_runs.2.1 0 ⟨100, [⟨"1 2\n", "3\n"⟩]⟩
     ⟨.ok, true, [.error ()], [0]⟩ (newSimpleCaseSetEvaluator ⟨100, [⟨"1 2\n", "3\n"⟩]⟩)
     rfl rfl,
   C8_hard_errors_stop_loop_finalisation_always_runs.2.2 [⟨100, [⟨"1 2\n", "3\n"⟩]⟩]
     CompileEnv.createFail []⟩

/-- Witness for C7: one block for three cases is fatal (`ErrParseOutput`);
one block for two cases is tolerated (only the last block is missing). -/
theorem C7_missing_block_fatal_before_last_witness :
    (judgeCaseSetLoop [Except.ok ⟨.finished, 1, 0, "x", "", 0⟩] 3 ⟨100, []⟩ 0 []
        [(0, ⟨"a", "x"⟩), (1, ⟨"b", "y"⟩), (2, ⟨"c", "z"⟩)]).2.2 = some JobErr.parseOutput ∧
    (judgeCaseSetLoop [Except.ok ⟨.finished, 1, 0, "x", "", 0⟩] 2 ⟨100, []⟩ 0 []
        [(0, ⟨"a", "x"⟩), (1, ⟨"b", "y"⟩)]).2.2 = none := by
  constructor
  · exact (C7_missing_block_fatal_before_last [Except.ok ⟨.finished, 1, 0, "x", "", 0⟩]
      [(0, ⟨"a", "x"⟩), (1, ⟨"b", "y"⟩), (2, ⟨"c", "z"⟩)] ⟨100, []⟩
      (by rintro b hbm; rw [List.mem_singleton] at hbm; exact ⟨_, hbm⟩)).1.mpr (by decide)
  · exact (C7_missing_block_fatal_before_last [Except.ok ⟨.finished, 1, 0, "x", "", 0⟩]
      [(0, ⟨"a", "x"⟩), (1, ⟨"b", "y"⟩)] ⟨100, []⟩
      (by rintro b hbm; rw [List.mem_singleton] at hbm; exact ⟨_, hbm⟩)).2.mpr (by decide)
